import Mathlib

/-
Shallow embedding of the core of the niv image viewer (src/images.rs and
src/directory.rs) together with proofs about its cache, navigation and
error-ledger behaviour.

Conventions of the embedding:
* Rust usize/u64 values become Nat, isize becomes Int (with explicit guards
  where a negative value cast to usize would make Rust panic).
* A Rust panic (assert!, unwrap on None, out-of-bounds index, slice range
  error, usize subtraction never underflows here thanks to the invariants
  carried by the theorems) is modelled as the value none of an Option result.
* The GetSize trait becomes an explicit size function gs : T -> Nat.
* PathHash is the u64 produced by to_path_hash; cache and ledger operations
  are keyed by it exactly as in the source.
-/

namespace Niv

/-- File identity: the u64 hash of a path produced by to_path_hash
(DefaultHasher over the path bytes).  The caches and the error ledger are
keyed by this value, exactly as in src/images.rs. -/
abbrev PathHash := Nat

/-- Model of struct Cache<T: GetSize> from src/images.rs: a VecDeque of
(PathHash, T) pairs (head of the list = front of the deque = oldest entry),
a running byte total, and the eviction target.  The element size function
gs models the GetSize trait. -/
structure Cache (T : Type) where
  buffer : List (PathHash × T)
  size : Nat
  target_size : Nat

/-- Model of Cache::new: empty buffer, size 0. -/
def Cache.new (target_size : Nat) : Cache T :=
  { buffer := [], size := 0, target_size := target_size }

/-- Model of Cache::clear.  Faithful to the source: `self.buffer.clear()`
empties the buffer but the `size` field is left untouched. -/
def Cache.clear (c : Cache T) : Cache T :=
  { c with buffer := [] }

/-- Model of Cache::find: linear scan for the first entry with the given
hash. -/
def Cache.find (c : Cache T) (path : PathHash) : Option T :=
  (c.buffer.find? (fun e => e.1 == path)).map (fun e => e.2)

/-- Model of the eviction loop inside Cache::push:
`while self.size + push_size > self.target_size { pop_front().unwrap(); size -= ... }`.
Returns the remaining buffer and the adjusted size; none models the panic of
`pop_front().unwrap()` when the loop reaches an empty buffer with the
condition still true. -/
def evictLoop (gs : T → Nat) (target_size push_size : Nat) :
    List (PathHash × T) → Nat → Option (List (PathHash × T) × Nat)
  | [], size =>
    if size + push_size > target_size then none else some ([], size)
  | item :: rest, size =>
    if size + push_size > target_size then
      evictLoop gs target_size push_size rest (size - gs item.2)
    else
      some (item :: rest, size)

/-- Model of Cache::push: no-op if the hash is already present, otherwise
evict oldest-first until the new entry fits, then append it at the back and
add its size.  none models the panic inside the eviction loop. -/
def Cache.push (gs : T → Nat) (c : Cache T) (path : PathHash) (obj : T) :
    Option (Cache T) :=
  if (c.find path).isSome then
    some c
  else
    match evictLoop gs c.target_size (gs obj) c.buffer c.size with
    | none => none
    | some (buffer, size) =>
      some { c with buffer := buffer ++ [(path, obj)], size := size + gs obj }

/-- Total byte size of the entries of a cache buffer, as reported by the
GetSize trait. -/
def cacheSizeSum (gs : T → Nat) (buffer : List (PathHash × T)) : Nat :=
  (buffer.map (fun e => gs e.2)).sum

/-- Accounting invariant of Cache: the size field equals the sum of the
entry sizes. -/
def Cache.SizeInv (gs : T → Nat) (c : Cache T) : Prop :=
  c.size = cacheSizeSum gs c.buffer

/-- Folding a list of push operations over a fresh cache, propagating the
panic (none) of any push.  Models an arbitrary sequence of Cache::push calls
starting from Cache::new. -/
def pushList (gs : T → Nat) (target_size : Nat) (ops : List (PathHash × T)) :
    Option (Cache T) :=
  ops.foldl (fun acc op => acc.bind (fun c => c.push gs op.1 op.2))
    (some (Cache.new target_size))

/-- Model of enum Order from src/directory.rs. -/
inductive Order where
  | name
  | updatedDate
  | fileSize
deriving DecidableEq

/-- Model of enum Comparison from src/directory.rs. -/
inductive Comparison where
  | ascending
  | descending
deriving DecidableEq

/-- Model of struct Directory from src/directory.rs: the ordered path list,
the cursor (isize in the source, hence Int), the stored order/comparison and
the lookahead count. -/
structure Directory (P : Type) where
  paths : List P
  index : Int
  order : Order
  comp : Comparison
  lookahead : Int

/-- Snapshot of the parts of the filesystem that Directory::change_order
consults: the Ord relation of PathBuf (nameLe a b models
a.cmp(b) != Greater), the modified time and byte length reported by
metadata() (none models a metadata error), and is_file(). -/
structure FsView (P : Type) where
  nameLe : P → P → Bool
  mtime : P → Option Nat
  fsize : P → Option Nat
  isFile : P → Bool

/-- Value used by the source for paths whose metadata cannot be read:
std::u64::MAX. -/
def u64MAX : Nat := 2 ^ 64 - 1

/-- Sort key for the metadata-based orderings, with the source's
unwrap_or(u64::MAX) fallback. -/
def metaKey (m : P → Option Nat) (p : P) : Nat :=
  (m p).getD u64MAX

/-- The "may precede" relation of the comparator that change_order passes
to sort_by for a given order and direction: le a b holds iff the comparator
does not return Greater on (a, b).  Descending orders flip the comparator's
arguments, as in the source. -/
def orderLe (fs : FsView P) (order : Order) (comp : Comparison)
    (a b : P) : Bool :=
  match order, comp with
  | .name, .ascending => fs.nameLe a b
  | .name, .descending => fs.nameLe b a
  | .updatedDate, .ascending =>
    decide (metaKey fs.mtime a ≤ metaKey fs.mtime b)
  | .updatedDate, .descending =>
    decide (metaKey fs.mtime b ≤ metaKey fs.mtime a)
  | .fileSize, .ascending =>
    decide (metaKey fs.fsize a ≤ metaKey fs.fsize b)
  | .fileSize, .descending =>
    decide (metaKey fs.fsize b ≤ metaKey fs.fsize a)

/-- Insert an element into a list, before the first element it may precede
strictly in the le order; part of the stable sort below. -/
def insertOrd (le : P → P → Bool) (x : P) : List P → List P
  | [] => [x]
  | y :: ys => if le x y then x :: y :: ys else y :: insertOrd le x ys

/-- Stable insertion sort; models Vec::sort_by with the comparator whose
"may precede" relation is le (Rust's sort_by is a stable sort, and a stable
sort is determined by its comparator). -/
def sortByLe (le : P → P → Bool) : List P → List P
  | [] => []
  | x :: xs => insertOrd le x (sortByLe le xs)

/-- Model of Iterator::position: index of the first element equal to x. -/
def position [DecidableEq P] (l : List P) (x : P) : Option Nat :=
  match l with
  | [] => none
  | y :: ys => if y = x then some 0 else (position ys x).map (· + 1)

/-- Indexing paths[i] with an isize index: none models the Rust panic
(negative index cast to a huge usize, or index out of bounds). -/
def idxGet (paths : List P) (i : Int) : Option P :=
  if i < 0 then none else paths.get? i.toNat

/-- Slicing paths[lo..hi] with isize-derived bounds: none models the Rust
panic when the range is invalid (lo > hi, hi > len, or a negative bound
cast to a huge usize). -/
def sliceIdx (paths : List P) (lo hi : Int) : Option (List P) :=
  if 0 ≤ lo ∧ lo ≤ hi ∧ hi ≤ (paths.length : Int) then
    some ((paths.drop lo.toNat).take (hi - lo).toNat)
  else none

/-- The path list after change_order's re-sort and re-filter: sorted by
the chosen comparator, then restricted to paths that are still regular
files. -/
def reorderedPaths (fs : FsView P) (order : Order) (comp : Comparison)
    (paths : List P) : List P :=
  (sortByLe (orderLe fs order comp) paths).filter (fun p => fs.isFile p)

/-- Model of Directory::change_order.  The order and comparison fields are
assigned first; an empty collection returns immediately; otherwise the
current path is read (none models the paths[index] panic), the list is
re-sorted by the chosen comparator, re-filtered by is_file, and the index
re-anchored to the position of the previous current path, defaulting to
0. -/
def Directory.change_order [DecidableEq P] (fs : FsView P) (d : Directory P)
    (order : Order) (comp : Comparison) : Option (Directory P) :=
  if d.paths.isEmpty then some { d with order := order, comp := comp }
  else
    match idxGet d.paths d.index with
    | none => none
    | some current =>
      some { d with
        order := order, comp := comp,
        paths := reorderedPaths fs order comp d.paths,
        index :=
          ((position (reorderedPaths fs order comp d.paths) current).getD 0
            : Nat) }

/-- One directory entry as seen by read_dir during enumeration: its path,
whether it is a regular file, and its extension (none when it has none). -/
structure Entry (P : Type) where
  path : P
  isFile : Bool
  ext : Option String

/-- Model of Directory::new.  isDir is dir.is_dir() (the source asserts it,
so none models that panic); readDir is the result of read_dir() (none
models the unwrap panic); entries are filtered to regular files whose
extension matches the allow-list; the index starts at the position of the
init path (or 0), and change_order is then applied with the fs snapshot. -/
def Directory.new [DecidableEq P] (isDir : Bool)
    (readDir : Option (List (Entry P))) (exts : List String) (order : Order)
    (comp : Comparison) (lookahead : Int) (init : Option P) (fs : FsView P) :
    Option (Directory P) :=
  if !isDir then none
  else
    match readDir with
    | none => none
    | some entries =>
      let paths := entries.filterMap (fun e =>
        if !e.isFile then none
        else
          match e.ext with
          | none => none
          | some x => if exts.any (fun s => x == s) then some e.path else none)
      let index : Int :=
        match init with
        | none => 0
        | some i => ((position paths i).getD 0 : Nat)
      Directory.change_order fs
        { paths := paths, index := index, order := order, comp := comp,
          lookahead := lookahead } order comp

/-- Model of Directory::next: on an empty collection an empty window; when
not at the last index, advance by one and slice
paths[index .. min(index+lookahead, len)); at the last index, the last path
alone without advancing. -/
def Directory.next (d : Directory P) : Option (Directory P × List P) :=
  if d.paths.isEmpty then some (d, [])
  else if d.index < (d.paths.length : Int) - 1 then
    match sliceIdx d.paths (d.index + 1)
        (if (d.paths.length : Int) ≤ d.index + 1 + d.lookahead then
          (d.paths.length : Int)
        else d.index + 1 + d.lookahead) with
    | none => none
    | some s => some ({ d with index := d.index + 1 }, s)
  else
    match idxGet d.paths ((d.paths.length : Int) - 1) with
    | none => none
    | some p => some (d, [p])

/-- Model of Directory::prev: symmetric to next. -/
def Directory.prev (d : Directory P) : Option (Directory P × List P) :=
  if d.paths.isEmpty then some (d, [])
  else if 0 < d.index then
    match sliceIdx d.paths
        (if d.index - 1 - d.lookahead < 0 then 0
        else d.index - 1 - d.lookahead) (d.index - 1 + 1) with
    | none => none
    | some s => some ({ d with index := d.index - 1 }, s)
  else
    match idxGet d.paths 0 with
    | none => none
    | some p => some (d, [p])

/-- Model of Directory::current: some none when the collection is empty,
some (some p) for the path under the cursor, none for the paths[index]
panic. -/
def Directory.current (d : Directory P) : Option (Option P) :=
  if d.paths.isEmpty then some none
  else (idxGet d.paths d.index).map some

/-- One navigation or reorder operation on a Directory; reorder carries the
filesystem snapshot it observes. -/
inductive DirOp (P : Type) where
  | next
  | prev
  | reorder (fs : FsView P) (order : Order) (comp : Comparison)

/-- Apply one operation, keeping only the state (the window returned by
next/prev is dropped). -/
def stepOp [DecidableEq P] (d : Directory P) : DirOp P → Option (Directory P)
  | .next => (d.next).map (fun r => r.1)
  | .prev => (d.prev).map (fun r => r.1)
  | .reorder fs order comp => d.change_order fs order comp

/-- Run a sequence of operations, propagating any panic. -/
def runOps [DecidableEq P] (d : Directory P) (ops : List (DirOp P)) :
    Option (Directory P) :=
  ops.foldl (fun acc op => acc.bind (fun d => stepOp d op)) (some d)

/-- Cursor invariant of a Directory: whenever the collection is non-empty,
the index addresses a valid element. -/
def Directory.Inv (d : Directory P) : Prop :=
  0 < d.paths.length → 0 ≤ d.index ∧ d.index < (d.paths.length : Int)

/-- Modelled from the claim wording of C4, for comparison with the code:
the paths at the inclusive index range
[new_index, min(new_index+lookahead, len-1)]. -/
def claimedNextWindow (paths : List P) (newIndex lookahead : Nat) : List P :=
  (paths.drop newIndex).take
    (min (newIndex + lookahead) (paths.length - 1) + 1 - newIndex)

/-- Model of enum Error from src/error.rs.  The HResult payload is kept as
its numeric code; the anyhow payload of Other carries no information the
pipeline inspects and is dropped. -/
inductive Error where
  | fileNotFound
  | unsupported
  | hresult (code : Nat)
  | other
deriving DecidableEq

/-- Result of one run of load_image: the two cache tiers after the run, the
Result<(), Error> value, and an instrumentation counter for the number of
image::open (decode) invocations performed by this run. -/
structure LoadResult (B I E : Type) where
  bmp_cache : Cache B
  image_cache : Cache I
  result : Except E Unit
  decodes : Nat

/-- Model of the async fn load_image from src/images.rs, for one fixed
path.  decode is the outcome of image::open(path)?.to_rgba8() for that path
(deterministic per path) and upload models dc.CreateBitmap.  The function
holds both cache locks for its whole body, so its effect is one atomic
step; none models a panic (a push panic, or the find-after-push unwrap). -/
def load_image (gsB : B → Nat) (gsI : I → Nat) (decode : Except E I)
    (upload : I → Except E B) (path_hash : PathHash) (bmp_cache : Cache B)
    (image_cache : Cache I) : Option (LoadResult B I E) :=
  if (bmp_cache.find path_hash).isSome then
    some ⟨bmp_cache, image_cache, Except.ok (), 0⟩
  else
    match image_cache.find path_hash with
    | some img =>
      match upload img with
      | Except.error e => some ⟨bmp_cache, image_cache, Except.error e, 0⟩
      | Except.ok bmp =>
        match bmp_cache.push gsB path_hash bmp with
        | none => none
        | some bc => some ⟨bc, image_cache, Except.ok (), 0⟩
    | none =>
      match decode with
      | Except.error e => some ⟨bmp_cache, image_cache, Except.error e, 1⟩
      | Except.ok img0 =>
        match image_cache.push gsI path_hash img0 with
        | none => none
        | some ic =>
          match ic.find path_hash with
          | none => none
          | some img =>
            match upload img with
            | Except.error e => some ⟨bmp_cache, ic, Except.error e, 1⟩
            | Except.ok bmp =>
              match bmp_cache.push gsB path_hash bmp with
              | none => none
              | some bc => some ⟨bc, ic, Except.ok (), 1⟩

/-- Model of the error-recording block in ImageManager::load: replace the
first ledger entry with this path hash in place, or append a new entry at
the end. -/
def recordError (errors : List (PathHash × E)) (path_hash : PathHash)
    (e : E) : List (PathHash × E) :=
  match errors with
  | [] => [(path_hash, e)]
  | x :: rest =>
    if x.1 == path_hash then (path_hash, e) :: rest
    else x :: recordError rest path_hash e

/-- Model of struct ImageManager from src/images.rs: the two cache tiers
and the error ledger (the tokio runtime is scheduling machinery with no
observable state of its own). -/
structure ImageManager (B I E : Type) where
  bmp_cache : Cache B
  image_cache : Cache I
  errors : List (PathHash × E)

/-- Lookup in the error ledger, as performed by ImageManager::get. -/
def errFind (errors : List (PathHash × E)) (path_hash : PathHash) :
    Option E :=
  (errors.find? (fun x => x.1 == path_hash)).map (fun x => x.2)

/-- Model of one complete execution of the task spawned by
ImageManager::load for one path: run load_image, record the error in the
ledger on failure (and only on failure), then fire the completion callback
(which carries only the path and is not modelled).  Because load_image
holds the bmp-cache lock from its first line to its last, concurrent loads
serialize, and a pair of concurrent loads is modelled as two sequential
executions.  Returns the new manager state, the pipeline result and the
decode count; none models a panic. -/
def loadOnce (gsB : B → Nat) (gsI : I → Nat) (decode : Except E I)
    (upload : I → Except E B) (path_hash : PathHash)
    (st : ImageManager B I E) :
    Option (ImageManager B I E × Except E Unit × Nat) :=
  match load_image gsB gsI decode upload path_hash st.bmp_cache
      st.image_cache with
  | none => none
  | some r =>
    match r.result with
    | Except.error e =>
      some (⟨r.bmp_cache, r.image_cache, recordError st.errors path_hash e⟩,
        Except.error e, r.decodes)
    | Except.ok _ =>
      some (⟨r.bmp_cache, r.image_cache, st.errors⟩, Except.ok (), r.decodes)

/-- Model of ImageManager::get: the ledger is consulted first; only when it
holds no entry for the identity is the bitmap cache searched. -/
def ImageManager.get (st : ImageManager B I E) (path_hash : PathHash) :
    Except E (Option B) :=
  match errFind st.errors path_hash with
  | some e => Except.error e
  | none => Except.ok (st.bmp_cache.find path_hash)

/-- Model of ImageManager::clear: clears both cache tiers; the error ledger
is not touched. -/
def ImageManager.clear (st : ImageManager B I E) : ImageManager B I E :=
  { st with
    bmp_cache := st.bmp_cache.clear,
    image_cache := st.image_cache.clear }

/-- Concrete filesystem snapshot over numeric path identifiers, used by
the concrete instances below: every path is a regular file with metadata
available, names ordered numerically. -/
def fsNat : FsView Nat :=
  { nameLe := Nat.ble, mtime := fun _ => some 0, fsize := fun _ => some 0,
    isFile := fun _ => true }

/-- Rank of the example file names a, b, c used by the reorder example. -/
def rankABC : String → Nat :=
  fun s => if s == "a" then 0 else if s == "b" then 1 else 2

/-- Concrete filesystem snapshot over the example file names a, b, c: all
regular files, names in alphabetical order. -/
def fsABC : FsView String :=
  { nameLe := fun a b => Nat.ble (rankABC a) (rankABC b),
    mtime := fun _ => some 0, fsize := fun _ => some 0,
    isFile := fun _ => true }

theorem cacheSizeSum_cons (gs : T → Nat) (x : PathHash × T)
    (l : List (PathHash × T)) :
    cacheSizeSum gs (x :: l) = gs x.2 + cacheSizeSum gs l := by
  simp [cacheSizeSum]

theorem cacheSizeSum_append (gs : T → Nat) (l l' : List (PathHash × T)) :
    cacheSizeSum gs (l ++ l') = cacheSizeSum gs l + cacheSizeSum gs l' := by
  simp [cacheSizeSum]

/-- Specification of a successful run of the eviction loop: the size stays
the sum of the remaining entries, the new entry now fits, and every
surviving entry was already in the buffer. -/
theorem evictLoop_some_spec (gs : T → Nat) (target_size push_size : Nat) :
    ∀ (buf : List (PathHash × T)) (size : Nat),
      size = cacheSizeSum gs buf →
      ∀ {buf' : List (PathHash × T)} {size' : Nat},
        evictLoop gs target_size push_size buf size = some (buf', size') →
        size' = cacheSizeSum gs buf' ∧ size' + push_size ≤ target_size ∧
          ∀ x ∈ buf', x ∈ buf := by
  intro buf
  induction buf with
  | nil =>
    intro size hsum buf' size' h
    simp only [evictLoop] at h
    split at h
    · exact absurd h (by simp)
    · rename_i hle
      cases h
      exact ⟨hsum, by omega, by simp⟩
  | cons item rest ih =>
    intro size hsum buf' size' h
    simp only [evictLoop] at h
    split at h
    · have hrest : size - gs item.2 = cacheSizeSum gs rest := by
        rw [hsum, cacheSizeSum_cons]; omega
      obtain ⟨h1, h2, h3⟩ := ih (size - gs item.2) hrest h
      exact ⟨h1, h2, fun x hx => List.mem_cons_of_mem _ (h3 x hx)⟩
    · rename_i hle
      cases h
      exact ⟨hsum, by omega, fun x hx => hx⟩

/-- When the pushed entry alone is larger than the eviction target, the
eviction loop drains the whole buffer and then panics on the empty deque. -/
theorem evictLoop_oversized_none (gs : T → Nat) (target_size push_size : Nat)
    (hover : push_size > target_size) :
    ∀ (buf : List (PathHash × T)) (size : Nat),
      size = cacheSizeSum gs buf →
      evictLoop gs target_size push_size buf size = none := by
  intro buf
  induction buf with
  | nil =>
    intro size _
    simp only [evictLoop]
    rw [if_pos (by omega)]
  | cons item rest ih =>
    intro size hsum
    simp only [evictLoop]
    rw [if_pos (by omega)]
    exact ih (size - gs item.2)
      (by rw [hsum, cacheSizeSum_cons]; omega)

/-- A successful push preserves the accounting invariant, keeps the total
within the target, and does not touch the eviction target. -/
theorem push_some_spec (gs : T → Nat) (c : Cache T) (path : PathHash) (obj : T)
    (hinv : Cache.SizeInv gs c) (hle : c.size ≤ c.target_size)
    {c' : Cache T} (h : c.push gs path obj = some c') :
    Cache.SizeInv gs c' ∧ c'.size ≤ c'.target_size ∧
      c'.target_size = c.target_size := by
  unfold Cache.push at h
  split at h
  · cases h
    exact ⟨hinv, hle, rfl⟩
  · revert h
    cases hev : evictLoop gs c.target_size (gs obj) c.buffer c.size with
    | none => intro h; exact absurd h (by simp)
    | some res =>
      obtain ⟨buf1, size1⟩ := res
      obtain ⟨h1, h2, _⟩ := evictLoop_some_spec gs c.target_size (gs obj)
        c.buffer c.size hinv hev
      intro h
      cases h
      refine ⟨?_, by simpa using h2, rfl⟩
      show size1 + gs obj = cacheSizeSum gs (buf1 ++ [(path, obj)])
      rw [cacheSizeSum_append, h1]
      simp [cacheSizeSum]

theorem pushList_go_none (gs : T → Nat) (ops : List (PathHash × T)) :
    ops.foldl (fun acc op => acc.bind (fun c => c.push gs op.1 op.2))
      (none : Option (Cache T)) = none := by
  induction ops with
  | nil => rfl
  | cons op rest ih => simpa using ih

theorem pushList_go_inv (gs : T → Nat) (ops : List (PathHash × T)) :
    ∀ (c : Cache T), Cache.SizeInv gs c → c.size ≤ c.target_size →
      ∀ {c' : Cache T},
        ops.foldl (fun acc op => acc.bind (fun c => c.push gs op.1 op.2))
          (some c) = some c' →
        Cache.SizeInv gs c' ∧ c'.size ≤ c'.target_size := by
  induction ops with
  | nil =>
    intro c hinv hle c' h
    cases h
    exact ⟨hinv, hle⟩
  | cons op rest ih =>
    intro c hinv hle c' h
    simp only [List.foldl_cons, Option.some_bind] at h
    cases hp : c.push gs op.1 op.2 with
    | none =>
      rw [hp] at h
      rw [pushList_go_none] at h
      exact absurd h (by simp)
    | some c1 =>
      rw [hp] at h
      obtain ⟨h1, h2, _⟩ := push_some_spec gs c op.1 op.2 hinv hle hp
      exact ih c1 h1 h2 h

/-- C6: after any sequence of Cache::push calls starting from an empty
cache in which every push returns normally, size() equals the sum of
get_size() over all currently held entries, and size() is at most
target_capacity except when the cache holds a single oversized entry. -/
theorem c6_bounded_cache_size_invariant (gs : T → Nat) (target_size : Nat)
    (ops : List (PathHash × T)) {c : Cache T}
    (h : pushList gs target_size ops = some c) :
    c.size = cacheSizeSum gs c.buffer ∧
      (c.size ≤ c.target_size ∨
        ∃ p v, c.buffer = [(p, v)] ∧ gs v > c.target_size) := by
  obtain ⟨h1, h2⟩ := pushList_go_inv gs ops (Cache.new target_size)
    (by rfl) (Nat.zero_le _) h
  exact ⟨h1, Or.inl h2⟩

/-- Witness for C6: pushing entries of sizes 5 and 7 into a fresh cache of
capacity 10 evicts the first entry and leaves a cache holding only the
second, with size 7 = sum of held sizes ≤ 10. -/
theorem c6_bounded_cache_size_invariant_witness :
    (Cache.mk [(2, 7)] 7 10 : Cache Nat).size =
        cacheSizeSum id (Cache.mk [(2, 7)] 7 10 : Cache Nat).buffer ∧
      ((Cache.mk [(2, 7)] 7 10 : Cache Nat).size ≤
          (Cache.mk [(2, 7)] 7 10 : Cache Nat).target_size ∨
        ∃ p v, (Cache.mk [(2, 7)] 7 10 : Cache Nat).buffer = [(p, v)] ∧
          id v > (Cache.mk [(2, 7)] 7 10 : Cache Nat).target_size) :=
  c6_bounded_cache_size_invariant id 10 [(1, 5), (2, 7)] rfl

/-- C2 (code bug): Cache::clear empties the buffer but does not reset the
size field, so size() still reports the pre-clear total; a subsequent push
that triggers eviction then panics on pop_front of the empty deque.  Here:
capacity 10, push an entry of size 6, clear, and size() is 6, not 0; then a
push of size 5 panics. -/
theorem c2_clear_does_not_reset_size :
    (((Cache.new (T := Nat) 10).push id 1 6).map Cache.clear).map
        (fun c => (c.buffer, c.size)) = some ([], 6) ∧
      (((Cache.new (T := Nat) 10).push id 1 6).map Cache.clear).bind
        (fun c => c.push id 2 5) = none :=
  ⟨rfl, rfl⟩

/-- C3 (counterexample): pushing a single entry of size 11 into a fresh
cache of capacity 10 does not terminate normally with the entry inserted;
the eviction loop drains the (already empty) cache and panics, modelled as
none. -/
theorem c3_oversized_push_counterexample :
    (Cache.new (T := Nat) 10).push id 0 11 = none ∧ (11 : Nat) > 10 :=
  ⟨rfl, by norm_num⟩

/-- C3 (amended): for every cache satisfying the size-accounting invariant
and every new entry whose byte size alone exceeds target_capacity, push
evicts existing entries oldest-first until the cache is empty and then
panics (pop_front().unwrap() on the empty deque); the new entry is never
inserted. -/
theorem c3_oversized_push_panics (gs : T → Nat) (c : Cache T)
    (path : PathHash) (obj : T) (hinv : Cache.SizeInv gs c)
    (habsent : c.find path = none) (hover : gs obj > c.target_size) :
    c.push gs path obj = none := by
  unfold Cache.push
  rw [habsent]
  simp only [Option.isSome_none, Bool.false_eq_true, if_false]
  rw [evictLoop_oversized_none gs c.target_size (gs obj) hover c.buffer
    c.size hinv]

/-- Witness for C3 (amended): a cache of capacity 10 holding one entry of
size 3; pushing an absent entry of size 20 panics. -/
theorem c3_oversized_push_panics_witness :
    (Cache.mk [(1, 3)] 3 10 : Cache Nat).push id 5 20 = none :=
  c3_oversized_push_panics id (Cache.mk [(1, 3)] 3 10) 5 20 rfl rfl
    (by norm_num)

theorem position_get [DecidableEq P] :
    ∀ (l : List P) (x : P) (i : Nat), position l x = some i →
      l.get? i = some x := by
  intro l
  induction l with
  | nil =>
    intro x i h
    exact absurd h (by simp [position])
  | cons y ys ih =>
    intro x i h
    simp only [position] at h
    split at h
    · rename_i heq
      cases h
      simp [heq]
    · cases hp : position ys x with
      | none =>
        rw [hp] at h
        exact absurd h (by simp)
      | some j =>
        rw [hp] at h
        injection h with h
        subst h
        simpa using ih x j hp

theorem position_of_mem [DecidableEq P] :
    ∀ (l : List P) (x : P), x ∈ l → ∃ i, position l x = some i := by
  intro l
  induction l with
  | nil =>
    intro x hx
    exact absurd hx (by simp)
  | cons y ys ih =>
    intro x hx
    by_cases heq : y = x
    · exact ⟨0, by simp [position, heq]⟩
    · have hmem : x ∈ ys := by
        rcases List.mem_cons.mp hx with h | h
        · exact absurd h.symm heq
        · exact h
      obtain ⟨j, hj⟩ := ih x hmem
      exact ⟨j + 1, by simp [position, heq, hj]⟩

theorem position_eq_none [DecidableEq P] :
    ∀ (l : List P) (x : P), x ∉ l → position l x = none := by
  intro l
  induction l with
  | nil => intro x _; rfl
  | cons y ys ih =>
    intro x hx
    have hne : ¬ y = x := fun h => hx (by simp [h])
    have hmem : x ∉ ys := fun h => hx (List.mem_cons_of_mem _ h)
    simp [position, hne, ih x hmem]

theorem position_lt_length [DecidableEq P] (l : List P) (x : P) (i : Nat)
    (h : position l x = some i) : i < l.length := by
  have := position_get l x i h
  exact (List.get?_eq_some.mp this).1

/-- Directory::change_order re-establishes the cursor invariant
unconditionally: the new index is the found position of the previous
current path (hence in range) or 0. -/
theorem change_order_inv [DecidableEq P] (fs : FsView P) (d : Directory P)
    (order : Order) (comp : Comparison) {d' : Directory P}
    (h : d.change_order fs order comp = some d') : d'.Inv := by
  unfold Directory.change_order at h
  split at h
  · rename_i hempty
    cases h
    intro hlen
    simp only [List.isEmpty_iff] at hempty
    have hlen' : 0 < d.paths.length := hlen
    rw [hempty] at hlen'
    exact absurd hlen' (by simp)
  · revert h
    cases hc : idxGet d.paths d.index with
    | none => intro h; exact absurd h (by simp)
    | some current =>
      intro h
      cases h
      intro hlen
      have hlen' : 0 < (reorderedPaths fs order comp d.paths).length := hlen
      show (0 : Int) ≤
          ((position (reorderedPaths fs order comp d.paths) current).getD 0
            : Nat) ∧
        (((position (reorderedPaths fs order comp d.paths) current).getD 0
            : Nat) : Int) <
          ((reorderedPaths fs order comp d.paths).length : Int)
      cases hp : position (reorderedPaths fs order comp d.paths) current with
      | none =>
        simp only [hp, Option.getD_none]
        omega
      | some i =>
        have hlt := position_lt_length _ _ _ hp
        simp only [hp, Option.getD_some]
        omega

theorem next_inv (d : Directory P) (hinv : d.Inv) {d' : Directory P}
    {w : List P} (h : d.next = some (d', w)) : d'.Inv := by
  unfold Directory.next at h
  split at h
  · cases h
    exact hinv
  · rename_i hempty
    split at h
    · rename_i hlt
      revert h
      cases hs : sliceIdx d.paths (d.index + 1)
          (if (d.paths.length : Int) ≤ d.index + 1 + d.lookahead then
            (d.paths.length : Int)
          else d.index + 1 + d.lookahead) with
      | none => intro h; exact absurd h (by simp)
      | some s =>
        intro h
        cases h
        intro hlen
        have hpos : 0 < d.paths.length := hlen
        obtain ⟨h1, h2⟩ := hinv hpos
        show (0 : Int) ≤ d.index + 1 ∧ d.index + 1 < (d.paths.length : Int)
        omega
    · revert h
      cases idxGet d.paths ((d.paths.length : Int) - 1) with
      | none => intro h; exact absurd h (by simp)
      | some p =>
        intro h
        cases h
        exact hinv

theorem prev_inv (d : Directory P) (hinv : d.Inv) {d' : Directory P}
    {w : List P} (h : d.prev = some (d', w)) : d'.Inv := by
  unfold Directory.prev at h
  split at h
  · cases h
    exact hinv
  · rename_i hempty
    split at h
    · rename_i hgt
      revert h
      cases hs : sliceIdx d.paths
          (if d.index - 1 - d.lookahead < 0 then 0
          else d.index - 1 - d.lookahead) (d.index - 1 + 1) with
      | none => intro h; exact absurd h (by simp)
      | some s =>
        intro h
        cases h
        intro hlen
        have hpos : 0 < d.paths.length := hlen
        obtain ⟨h1, h2⟩ := hinv hpos
        show (0 : Int) ≤ d.index - 1 ∧ d.index - 1 < (d.paths.length : Int)
        omega
    · revert h
      cases idxGet d.paths 0 with
      | none => intro h; exact absurd h (by simp)
      | some p =>
        intro h
        cases h
        exact hinv

theorem new_inv [DecidableEq P] (isDir : Bool)
    (readDir : Option (List (Entry P))) (exts : List String) (order : Order)
    (comp : Comparison) (lookahead : Int) (init : Option P) (fs : FsView P)
    {d : Directory P}
    (h : Directory.new isDir readDir exts order comp lookahead init fs
      = some d) : d.Inv := by
  unfold Directory.new at h
  split at h
  · exact absurd h (by simp)
  · revert h
    cases readDir with
    | none => intro h; exact absurd h (by simp)
    | some entries =>
      intro h
      exact change_order_inv _ _ _ _ h

theorem runOps_go_none [DecidableEq P] (ops : List (DirOp P)) :
    ops.foldl (fun acc op => acc.bind (fun d => stepOp d op))
      (none : Option (Directory P)) = none := by
  induction ops with
  | nil => rfl
  | cons op rest ih => simpa using ih

theorem stepOp_inv [DecidableEq P] (d : Directory P) (op : DirOp P)
    (hinv : d.Inv) {d' : Directory P} (h : stepOp d op = some d') :
    d'.Inv := by
  cases op with
  | next =>
    unfold stepOp at h
    cases hs : d.next with
    | none => rw [hs] at h; exact absurd h (by simp)
    | some r =>
      rw [hs] at h
      simp only [Option.map_some] at h
      cases h
      exact next_inv d hinv (by rw [hs])
  | prev =>
    unfold stepOp at h
    cases hs : d.prev with
    | none => rw [hs] at h; exact absurd h (by simp)
    | some r =>
      rw [hs] at h
      simp only [Option.map_some] at h
      cases h
      exact prev_inv d hinv (by rw [hs])
  | reorder fs order comp =>
    exact change_order_inv fs d order comp h

theorem runOps_inv [DecidableEq P] (ops : List (DirOp P)) :
    ∀ (d : Directory P), d.Inv → ∀ {d' : Directory P},
      runOps d ops = some d' → d'.Inv := by
  induction ops with
  | nil =>
    intro d hinv d' h
    cases h
    exact hinv
  | cons op rest ih =>
    intro d hinv d' h
    simp only [runOps, List.foldl_cons, Option.some_bind] at h
    cases hp : stepOp d op with
    | none =>
      rw [hp] at h
      rw [runOps_go_none] at h
      exact absurd h (by simp)
    | some d1 =>
      rw [hp] at h
      exact ih d1 (stepOp_inv d op hinv hp) h

/-- C7: for every PathCollection built by Directory::new and every sequence
of next/prev/reorder operations that completes without panicking, the
cursor invariant holds: whenever the collection is non-empty,
0 <= index < len, so current() addresses a valid element. -/
theorem c7_cursor_invariant [DecidableEq P] (isDir : Bool)
    (readDir : Option (List (Entry P))) (exts : List String) (order : Order)
    (comp : Comparison) (lookahead : Int) (init : Option P) (fs : FsView P)
    (ops : List (DirOp P)) {d : Directory P}
    (h : (Directory.new isDir readDir exts order comp lookahead init
        fs).bind (fun d0 => runOps d0 ops) = some d) :
    d.Inv := by
  cases hnew : Directory.new isDir readDir exts order comp lookahead init
      fs with
  | none =>
    rw [hnew] at h
    exact absurd h (by simp)
  | some d0 =>
    rw [hnew] at h
    simp only [Option.some_bind] at h
    exact runOps_inv ops d0
      (new_inv isDir readDir exts order comp lookahead init fs hnew) h

/-- Witness for C7: a directory of three matching files opened at file 2,
then next, a descending reorder and prev; the invariant holds on the
resulting state. -/
theorem c7_cursor_invariant_witness :
    Directory.Inv
      { paths := [3, 2, 1], index := 0, order := Order.name,
        comp := Comparison.descending, lookahead := 1 } :=
  c7_cursor_invariant true
    (some [⟨3, true, some "png"⟩, ⟨1, true, some "png"⟩,
      ⟨2, true, some "jpg"⟩, ⟨9, false, some "png"⟩, ⟨8, true, some "txt"⟩])
    ["png", "jpg"] Order.name Comparison.ascending 1 (some 2) fsNat
    [DirOp.next, DirOp.reorder fsNat Order.name Comparison.descending,
      DirOp.prev] rfl

theorem sliceIdx_some (paths : List P) (lo hi : Int) (h0 : 0 ≤ lo)
    (h1 : lo ≤ hi) (h2 : hi ≤ (paths.length : Int)) :
    sliceIdx paths lo hi =
      some ((paths.drop lo.toNat).take (hi - lo).toNat) := by
  unfold sliceIdx
  rw [if_pos ⟨h0, h1, h2⟩]

/-- C8: after change_order on a non-empty PathCollection, the index points
at the path that was current before the re-sort, or defaults to 0 when
that path no longer appears in the re-filtered sequence. -/
theorem c8_reorder_preserves_cursor [DecidableEq P] (fs : FsView P)
    (d : Directory P) (order : Order) (comp : Comparison) {cur : P}
    {d' : Directory P} (hcur : idxGet d.paths d.index = some cur)
    (h : d.change_order fs order comp = some d') :
    (cur ∈ d'.paths → idxGet d'.paths d'.index = some cur) ∧
      (cur ∉ d'.paths → d'.index = 0) := by
  unfold Directory.change_order at h
  split at h
  · rename_i hempty
    simp only [List.isEmpty_iff] at hempty
    rw [hempty] at hcur
    unfold idxGet at hcur
    split at hcur
    · exact absurd hcur (by simp)
    · exact absurd hcur (by simp)
  · rw [hcur] at h
    cases h
    constructor
    · intro hmem
      have hmem' : cur ∈ reorderedPaths fs order comp d.paths := hmem
      obtain ⟨i, hi⟩ := position_of_mem _ cur hmem'
      have hget := position_get _ cur i hi
      show idxGet (reorderedPaths fs order comp d.paths)
        (((position (reorderedPaths fs order comp d.paths) cur).getD 0
          : Nat)) = some cur
      rw [hi]
      unfold idxGet
      rw [if_neg (by omega)]
      simpa using hget
    · intro hnmem
      have hnmem' : cur ∉ reorderedPaths fs order comp d.paths := hnmem
      have hp := position_eq_none _ cur hnmem'
      show (((position (reorderedPaths fs order comp d.paths) cur).getD 0
        : Nat) : Int) = 0
      rw [hp]
      rfl

/-- Witness for C8: files a, b, c sorted by name ascending with the cursor
on b at index 1; reordering to descending yields [c, b, a] and the new
index 1 still addresses b. -/
theorem c8_reorder_preserves_cursor_witness :
    idxGet ["c", "b", "a"] (1 : Int) = some "b" :=
  (@c8_reorder_preserves_cursor String _ fsABC
    (Directory.mk ["a", "b", "c"] 1 Order.name Comparison.ascending 5)
    Order.name Comparison.descending "b"
    (Directory.mk ["c", "b", "a"] 1 Order.name Comparison.descending 5)
    rfl (by rfl)).1 (by decide)

/-- C4 (counterexample): a collection of two files with lookahead 0 at
index 0: next() advances the cursor to index 1 but returns the empty
window, while the claimed inclusive range [1, min(1+0, 1)] = [1, 1] holds
the file at index 1. -/
theorem c4_next_window_counterexample :
    ((Directory.mk [10, 20] 0 Order.name Comparison.ascending 0
        : Directory Nat).next).map (fun r => (r.1.index, r.2)) =
        some ((1 : Int), ([] : List Nat)) ∧
      claimedNextWindow ([10, 20] : List Nat) 1 0 = [20] ∧
      ([] : List Nat) ≠ [20] :=
  ⟨rfl, rfl, by decide⟩

/-- C4 (amended): with a non-negative cursor and lookahead, next() on an
empty collection returns an empty window; when not at the last index it
advances the index by 1 and returns exactly the paths at the half-open
index range [new_index, min(new_index+lookahead, len)) — one element fewer
at the top than the claimed inclusive range when no clamping occurs, and in
particular empty for lookahead 0; at the last index it returns only the
last path without advancing. -/
theorem c4_next_window (d : Directory P) (hidx : 0 ≤ d.index)
    (hlook : 0 ≤ d.lookahead) :
    (d.paths = [] → d.next = some (d, [])) ∧
      (d.index + 1 < (d.paths.length : Int) →
        d.next = some ({ d with index := d.index + 1 },
          (d.paths.drop (d.index + 1).toNat).take
            (min ((d.index + 1).toNat + d.lookahead.toNat) d.paths.length
              - (d.index + 1).toNat))) ∧
      (d.paths ≠ [] → d.index = (d.paths.length : Int) - 1 →
        d.next = some (d, d.paths.getLast?.toList)) := by
  refine ⟨?_, ?_, ?_⟩
  · intro hemp
    unfold Directory.next
    rw [if_pos (by simp [hemp])]
  · intro hlt
    have hlen : 0 < d.paths.length := by
      by_contra hc
      have : d.paths.length = 0 := by omega
      rw [this] at hlt
      simp at hlt
      omega
    have hne : ¬ d.paths.isEmpty = true := by
      simp only [List.isEmpty_iff]
      intro hemp
      rw [hemp] at hlen
      simp at hlen
    unfold Directory.next
    rw [if_neg hne]
    rw [if_pos (show d.index < (d.paths.length : Int) - 1 from by omega)]
    by_cases hclamp :
        (d.paths.length : Int) ≤ d.index + 1 + d.lookahead
    · rw [if_pos hclamp]
      rw [sliceIdx_some d.paths (d.index + 1) ((d.paths.length : Int))
        (by omega) (by omega) (by omega)]
      rw [show ((d.paths.length : Int) - (d.index + 1)).toNat =
        min ((d.index + 1).toNat + d.lookahead.toNat) d.paths.length
          - (d.index + 1).toNat from by omega]
    · rw [if_neg hclamp]
      rw [sliceIdx_some d.paths (d.index + 1) (d.index + 1 + d.lookahead)
        (by omega) (by omega) (by omega)]
      rw [show (d.index + 1 + d.lookahead - (d.index + 1)).toNat =
        min ((d.index + 1).toNat + d.lookahead.toNat) d.paths.length
          - (d.index + 1).toNat from by omega]
  · intro hne hlast
    have hlen : 0 < d.paths.length := List.length_pos.mpr hne
    unfold Directory.next
    rw [if_neg (by simp [List.isEmpty_iff, hne])]
    rw [if_neg (by omega)]
    unfold idxGet
    rw [if_neg (by omega)]
    rw [show ((d.paths.length : Int) - 1).toNat = d.paths.length - 1 from
      by omega]
    rw [List.get?_eq_getElem?, ← List.getLast?_eq_getElem?]
    cases hg : d.paths.getLast? with
    | none => exact absurd (List.getLast?_eq_none_iff.mp hg) hne
    | some p => rfl

/-- Witness for C4 (amended): four files, lookahead 1, cursor at index 0;
next() moves to index 1 and returns only the path at index 1 (the half-open
window [1, 2)). -/
theorem c4_next_window_witness :
    (Directory.mk [10, 20, 30, 40] 0 Order.name Comparison.ascending 1
        : Directory Nat).next =
      some (Directory.mk [10, 20, 30, 40] 1 Order.name Comparison.ascending
        1, [20]) := by
  have h := (c4_next_window
    (Directory.mk [10, 20, 30, 40] 0 Order.name Comparison.ascending 1
      : Directory Nat) (by decide) (by decide)).2.1 (by decide)
  exact h

/-- C5 (counterexample): building from a non-directory input does not
return an empty collection (or any collection): the assert panics, modelled
as none. -/
theorem c5_nondirectory_build_counterexample :
    ¬ ∃ d : Directory Nat,
      Directory.new false (some []) ["png"] Order.name Comparison.ascending
        0 none fsNat = some d := by
  intro hex
  obtain ⟨d, hd⟩ := hex
  have h0 : Directory.new (P := Nat) false (some []) ["png"] Order.name
      Comparison.ascending 0 none fsNat = none := rfl
  rw [h0] at hd
  exact Option.noConfusion hd

/-- C5 (amended): for every non-directory input, Directory::new panics on
its assert!(dir.is_dir()) — it neither returns an empty collection nor
propagates an error value. -/
theorem c5_nondirectory_build_panics [DecidableEq P]
    (readDir : Option (List (Entry P))) (exts : List String) (order : Order)
    (comp : Comparison) (lookahead : Int) (init : Option P) (fs : FsView P) :
    Directory.new false readDir exts order comp lookahead init fs = none :=
  rfl

theorem evictLoop_subset (gs : T → Nat) (target_size push_size : Nat) :
    ∀ (buf : List (PathHash × T)) (size : Nat) {buf' : List (PathHash × T)}
      {size' : Nat},
      evictLoop gs target_size push_size buf size = some (buf', size') →
      ∀ x ∈ buf', x ∈ buf := by
  intro buf
  induction buf with
  | nil =>
    intro size buf' size' h
    simp only [evictLoop] at h
    split at h
    · exact absurd h (by simp)
    · cases h
      simp
  | cons item rest ih =>
    intro size buf' size' h
    simp only [evictLoop] at h
    split at h
    · intro x hx
      exact List.mem_cons_of_mem _ (ih _ h x hx)
    · cases h
      intro x hx
      exact hx

/-- After a successful push of an absent entry, find returns exactly the
pushed value. -/
theorem push_find_self (gs : T → Nat) (c : Cache T) (path : PathHash)
    (v : T) (habsent : c.find path = none) {c' : Cache T}
    (h : c.push gs path v = some c') : c'.find path = some v := by
  unfold Cache.push at h
  rw [habsent] at h
  simp only [Option.isSome_none, Bool.false_eq_true, if_false] at h
  revert h
  cases hev : evictLoop gs c.target_size (gs v) c.buffer c.size with
  | none => intro h; exact absurd h (by simp)
  | some res =>
    obtain ⟨buf1, size1⟩ := res
    intro h
    cases h
    unfold Cache.find
    have hsub := evictLoop_subset gs c.target_size (gs v) c.buffer
      c.size hev
    have hb : c.buffer.find? (fun e => e.1 == path) = none := by
      unfold Cache.find at habsent
      cases hfe : c.buffer.find? (fun e => e.1 == path) with
      | none => rfl
      | some y =>
        rw [hfe] at habsent
        exact absurd habsent (by simp)
    have hnone : buf1.find? (fun e => e.1 == path) = none := by
      rw [List.find?_eq_none] at hb ⊢
      intro x hx
      exact hb x (hsub x hx)
    rw [List.find?_append, hnone]
    simp

/-- ImageManager::get returns the recorded error whenever the ledger holds
one for the identity. -/
theorem get_of_errFind (st : ImageManager B I E) (path_hash : PathHash)
    (e : E) (herr : errFind st.errors path_hash = some e) :
    st.get path_hash = Except.error e := by
  unfold ImageManager.get
  rw [herr]

/-- When either cache tier already holds the identity, load_image performs
no decode. -/
theorem load_image_decodes_zero_of_cached (gsB : B → Nat) (gsI : I → Nat)
    (decode : Except E I) (upload : I → Except E B) (path_hash : PathHash)
    (bc : Cache B) (ic : Cache I)
    (hcached : (bc.find path_hash).isSome ∨ (ic.find path_hash).isSome)
    {r : LoadResult B I E}
    (h : load_image gsB gsI decode upload path_hash bc ic = some r) :
    r.decodes = 0 := by
  unfold load_image at h
  split at h
  · cases h
    rfl
  · rename_i hb
    have hic : (ic.find path_hash).isSome := by
      rcases hcached with hc | hc
      · exact absurd hc hb
      · exact hc
    cases hfi : ic.find path_hash with
    | none =>
      rw [hfi] at hic
      exact absurd hic (by simp)
    | some img =>
      rw [hfi] at h
      simp only [] at h
      cases hu : upload img with
      | error e =>
        rw [hu] at h
        simp only [] at h
        cases h
        rfl
      | ok bmp =>
        rw [hu] at h
        simp only [] at h
        cases hpb : bc.push gsB path_hash bmp with
        | none =>
          rw [hpb] at h
          exact absurd h (by simp)
        | some bc1 =>
          rw [hpb] at h
          simp only [] at h
          cases h
          rfl

/-- On a cold start (identity in neither tier) with a successful decode,
load_image decodes exactly once and leaves the identity resident: in the
bitmap cache when the upload and the insertions succeed, and at least in
the pixel cache when the upload fails. -/
theorem load_image_cold_ok (gsB : B → Nat) (gsI : I → Nat)
    (upload : I → Except E B) (path_hash : PathHash) (bc : Cache B)
    (ic : Cache I) (img : I) (hb : bc.find path_hash = none)
    (hi : ic.find path_hash = none) {r : LoadResult B I E}
    (h : load_image gsB gsI (Except.ok img) upload path_hash bc ic
      = some r) :
    r.decodes = 1 ∧
      ((r.bmp_cache.find path_hash).isSome ∨
        (r.image_cache.find path_hash).isSome) := by
  unfold load_image at h
  rw [hb] at h
  simp only [Option.isSome_none, Bool.false_eq_true, if_false] at h
  rw [hi] at h
  simp only [] at h
  cases hp : ic.push gsI path_hash img with
  | none =>
    rw [hp] at h
    exact absurd h (by simp)
  | some ic1 =>
    rw [hp] at h
    simp only [] at h
    have hfind := push_find_self gsI ic path_hash img hi hp
    rw [hfind] at h
    simp only [] at h
    cases hu : upload img with
    | error e =>
      rw [hu] at h
      simp only [] at h
      cases h
      refine ⟨rfl, Or.inr ?_⟩
      rw [hfind]
      rfl
    | ok bmp =>
      rw [hu] at h
      simp only [] at h
      cases hpb : bc.push gsB path_hash bmp with
      | none =>
        rw [hpb] at h
        exact absurd h (by simp)
      | some bc1 =>
        rw [hpb] at h
        simp only [] at h
        cases h
        have hfb := push_find_self gsB bc path_hash bmp hb hpb
        refine ⟨rfl, Or.inl ?_⟩
        rw [hfb]
        rfl

/-- Decomposition of loadOnce: a normal completion comes from a load_image
run, takes its caches and decode count, and keeps the result value. -/
theorem loadOnce_result (gsB : B → Nat) (gsI : I → Nat) (decode : Except E I)
    (upload : I → Except E B) (path_hash : PathHash)
    (st : ImageManager B I E) {st' : ImageManager B I E} {r : Except E Unit}
    {n : Nat}
    (h : loadOnce gsB gsI decode upload path_hash st = some (st', r, n)) :
    ∃ ra : LoadResult B I E,
      load_image gsB gsI decode upload path_hash st.bmp_cache
          st.image_cache = some ra ∧
        st'.bmp_cache = ra.bmp_cache ∧ st'.image_cache = ra.image_cache ∧
        n = ra.decodes := by
  unfold loadOnce at h
  cases hl : load_image gsB gsI decode upload path_hash st.bmp_cache
      st.image_cache with
  | none =>
    rw [hl] at h
    exact absurd h (by simp)
  | some ra =>
    rw [hl] at h
    simp only [] at h
    cases hr : ra.result with
    | error e =>
      rw [hr] at h
      simp only [] at h
      cases h
      exact ⟨ra, rfl, rfl, rfl, rfl⟩
    | ok u =>
      cases u
      rw [hr] at h
      simp only [] at h
      cases h
      exact ⟨ra, rfl, rfl, rfl, rfl⟩

/-- C10: ImageManager::get consults the error ledger before the bitmap
cache, so a recorded error for a path identity takes priority: get returns
Err with that error even when a bitmap for the same identity is resident in
the bitmap cache. -/
theorem c10_error_priority_over_bitmap (st : ImageManager B I E)
    (path_hash : PathHash) (e : E) (b : B)
    (herr : errFind st.errors path_hash = some e)
    (_hbmp : st.bmp_cache.find path_hash = some b) :
    st.get path_hash = Except.error e :=
  get_of_errFind st path_hash e herr

/-- Witness for C10: a state whose bitmap cache holds a bitmap for hash 7
while the ledger holds Unsupported for the same hash; get returns the
error. -/
theorem c10_error_priority_over_bitmap_witness :
    ImageManager.get (ImageManager.mk (Cache.mk [(7, 5)] 5 100)
      (Cache.mk ([] : List (PathHash × Nat)) 0 100)
      [(7, Error.unsupported)]) 7 = Except.error Error.unsupported :=
  c10_error_priority_over_bitmap (ImageManager.mk (Cache.mk [(7, 5)] 5 100)
    (Cache.mk ([] : List (PathHash × Nat)) 0 100)
    [(7, Error.unsupported)]) 7 Error.unsupported 5 rfl rfl

/-- C1 (counterexample): hash 7 has a sticky Unsupported entry; a later
load succeeds end-to-end (decode 5, upload, both insertions), yet the
ledger entry survives and get returns the stale Err, not
Ok(Some(bitmap)). -/
theorem c1_stale_error_counterexample :
    loadOnce id id (Except.ok 5) Except.ok 7
        (ImageManager.mk (Cache.mk [] 0 100) (Cache.mk [] 0 100)
          [(7, Error.unsupported)]) =
      some (ImageManager.mk (Cache.mk [(7, 5)] 5 100)
        (Cache.mk [(7, 5)] 5 100) [(7, Error.unsupported)],
        Except.ok (), 1) ∧
      ImageManager.get (ImageManager.mk (Cache.mk [(7, 5)] 5 100)
        (Cache.mk [(7, 5)] 5 100) [(7, Error.unsupported)]) 7 =
        Except.error Error.unsupported ∧
      (Except.error Error.unsupported : Except Error (Option Nat)) ≠
        Except.ok (some 5) :=
  ⟨rfl, rfl, fun hc => Except.noConfusion hc⟩

/-- C1 (amended): a later load that succeeds end-to-end does not remove the
stale ledger entry: the ledger is written only by failing loads and never
cleared, so get for that path still returns the recorded error even though
the bitmap is now cached. -/
theorem c1_sticky_error_survives_success (gsB : B → Nat) (gsI : I → Nat)
    (decode : Except E I) (upload : I → Except E B) (path_hash : PathHash)
    (st : ImageManager B I E) (e : E)
    (herr : errFind st.errors path_hash = some e)
    {st' : ImageManager B I E} {n : Nat}
    (h : loadOnce gsB gsI decode upload path_hash st
      = some (st', Except.ok (), n)) :
    errFind st'.errors path_hash = some e ∧
      st'.get path_hash = Except.error e := by
  unfold loadOnce at h
  cases hl : load_image gsB gsI decode upload path_hash st.bmp_cache
      st.image_cache with
  | none =>
    rw [hl] at h
    exact absurd h (by simp)
  | some r =>
    rw [hl] at h
    simp only [] at h
    cases hr : r.result with
    | error e1 =>
      rw [hr] at h
      simp only [] at h
      simp at h
    | ok u =>
      cases u
      rw [hr] at h
      simp only [] at h
      cases h
      exact ⟨herr, get_of_errFind _ path_hash e herr⟩

/-- Witness for C1 (amended): the concrete successful load over a state
with a sticky Unsupported entry for hash 7. -/
theorem c1_sticky_error_survives_success_witness :
    errFind [(7, Error.unsupported)] 7 = some Error.unsupported ∧
      ImageManager.get (ImageManager.mk (Cache.mk [(7, 5)] 5 100)
        (Cache.mk [(7, 5)] 5 100) [(7, Error.unsupported)]) 7 =
        Except.error Error.unsupported :=
  c1_sticky_error_survives_success id id (Except.ok 5) Except.ok 7
    (ImageManager.mk (Cache.mk [] 0 100) (Cache.mk [] 0 100)
      [(7, Error.unsupported)]) Error.unsupported rfl (by rfl)

/-- C9 (amended): loads serialize on the bitmap-cache lock, which load_image
holds across its whole body, so at most one decode runs at a time; and when
the decode of the path succeeds, two loads for the same path execute
exactly one decode between them — the first decodes once, the duplicate
finds the identity cached in a tier and performs no decode.  (When the
decode fails, nothing is cached and the duplicate re-runs the decode: see
the counterexample.) -/
theorem c9_concurrent_load_single_decode (gsB : B → Nat) (gsI : I → Nat)
    (upload : I → Except E B) (path_hash : PathHash) (img : I)
    (st : ImageManager B I E)
    (hcold_b : st.bmp_cache.find path_hash = none)
    (hcold_i : st.image_cache.find path_hash = none)
    {st1 st2 : ImageManager B I E} {r1 r2 : Except E Unit} {n1 n2 : Nat}
    (h1 : loadOnce gsB gsI (Except.ok img) upload path_hash st
      = some (st1, r1, n1))
    (h2 : loadOnce gsB gsI (Except.ok img) upload path_hash st1
      = some (st2, r2, n2)) :
    n1 = 1 ∧ n2 = 0 := by
  obtain ⟨ra, hl1, hb1, hi1, hn1⟩ :=
    loadOnce_result gsB gsI (Except.ok img) upload path_hash st h1
  obtain ⟨hdec1, hcached⟩ := load_image_cold_ok gsB gsI upload path_hash
    st.bmp_cache st.image_cache img hcold_b hcold_i hl1
  obtain ⟨rb, hl2, _, _, hn2⟩ :=
    loadOnce_result gsB gsI (Except.ok img) upload path_hash st1 h2
  rw [hb1, hi1] at hl2
  have hz := load_image_decodes_zero_of_cached gsB gsI (Except.ok img)
    upload path_hash ra.bmp_cache ra.image_cache hcached hl2
  exact ⟨hn1.trans hdec1, hn2.trans hz⟩

/-- Witness for C9 (amended): two serialized loads for hash 7 from a cold
state with a successful decode; the first performs the single decode, the
second none. -/
theorem c9_concurrent_load_single_decode_witness :
    (1 : Nat) = 1 ∧ (0 : Nat) = 0 :=
  c9_concurrent_load_single_decode id id Except.ok 7 5
    (ImageManager.mk (Cache.mk [] 0 100) (Cache.mk [] 0 100)
      ([] : List (PathHash × Error))) rfl rfl (by rfl) (by rfl)

/-- C9 (counterexample): for a path whose decode fails, two serialized
loads each run the decode (the failure caches nothing), so the decode
counter reaches 2, not 1. -/
theorem c9_duplicate_decode_counterexample :
    loadOnce id id (Except.error Error.unsupported) Except.ok 7
        (ImageManager.mk (Cache.mk [] 0 100) (Cache.mk [] 0 100)
          ([] : List (PathHash × Error))) =
      some (ImageManager.mk (Cache.mk [] 0 100) (Cache.mk [] 0 100)
        [(7, Error.unsupported)], Except.error Error.unsupported, 1) ∧
      loadOnce id id (Except.error Error.unsupported) Except.ok 7
        (ImageManager.mk (Cache.mk [] 0 100) (Cache.mk [] 0 100)
          [(7, Error.unsupported)]) =
      some (ImageManager.mk (Cache.mk [] 0 100) (Cache.mk [] 0 100)
        [(7, Error.unsupported)], Except.error Error.unsupported, 1) ∧
      (1 : Nat) + 1 ≠ 1 :=
  ⟨rfl, rfl, by decide⟩

end Niv
